import Mathlib

/-!
Verification of the screenshot-renamer pipeline (src/cmd/root.go).

Go strings are modelled as `List Char` (one element per rune).  Pure helper
functions of the program are translated directly; the two remote services
(Google Vision, OpenAI chat completion) are external collaborators and appear
as explicit parameters: the describer as an already-delivered result, the chat
completion as a function from the prompt sent to the outcome received.
Library functions of Go's standard library (`strings`, `path/filepath`) are
modelled by their documented semantics, restricted to the Unix path syntax the
program uses.
-/

namespace ScreenshotRenamer

/-- ASCII word character, the `\w` class of Go's regexp package
(`[0-9A-Za-z_]`). -/
def isGoWordChar (c : Char) : Bool :=
  ('a' ≤ c && c ≤ 'z') || ('A' ≤ c && c ≤ 'Z') || ('0' ≤ c && c ≤ '9') || c == '_'

/-- Whitespace as trimmed by `strings.TrimSpace`, restricted to the ASCII
whitespace characters (the program only ever trims ASCII space in the
sanitizer; for model completeness the other ASCII whitespace chars are
included). -/
def isGoSpace (c : Char) : Bool :=
  c == ' ' || c == '\t' || c == '\n' || c == '\x0b' || c == '\x0c' || c == '\r'

/-- Rune-wise lowercasing, modelling `strings.ToLower` on the fragment the
program exercises: ASCII letters plus the accented capital E-acute mentioned
in the dalle pattern. -/
def goToLower (c : Char) : Char :=
  if 'A' ≤ c && c ≤ 'Z' then Char.ofNat (c.toNat + 32)
  else if c == 'É' then 'é' else c

/-- Model of `strings.TrimSpace`: drop whitespace from the front, then from
the back. -/
def goTrimSpace (s : List Char) : List Char :=
  ((s.dropWhile isGoSpace).reverse.dropWhile isGoSpace).reverse

/-- Substring test: models `strings.Contains` and, for the literal patterns
used here, `regexp.MatchString`. -/
def containsSub (pat : List Char) : List Char → Bool
  | [] => pat.isPrefixOf []
  | c :: rest => pat.isPrefixOf (c :: rest) || containsSub pat rest

/-- Model of `strings.Join` with separator `sep`. -/
def joinWith (sep : List Char) : List (List Char) → List Char
  | [] => []
  | [x] => x
  | x :: y :: rest => x ++ sep ++ joinWith sep (y :: rest)

/-! ### sanitizeFileName (root.go lines 254-259)

```go
func sanitizeFileName(name string) string {
    reg := regexp.MustCompile(`[^\w\- ]`)
    cleanName := reg.ReplaceAllString(name, "")
    cleanName = strings.ReplaceAll(strings.TrimSpace(cleanName), " ", "_")
    return cleanName
}
```
-/

/-- A character kept by the first pass of `sanitizeFileName`: the complement
of the deleted class `[^\w\- ]`. -/
def keepChar (c : Char) : Bool :=
  isGoWordChar c || c == '-' || c == ' '

/-- `sanitizeFileName` on rune lists: delete every character outside
`[\w\- ]`, trim, then replace every (single) space by an underscore. -/
def sanitizeCore (name : List Char) : List Char :=
  (goTrimSpace (name.filter keepChar)).map (fun c => if c == ' ' then '_' else c)

/-- `sanitizeFileName` on `String`, the source signature. -/
def sanitizeFileName (name : String) : String :=
  String.mk (sanitizeCore name.data)

/-- Modelled from the spec: the sanitizer the specification describes — trim
leading/trailing whitespace FIRST, strip every character outside
`[\w\- ]`, then replace each RUN of consecutive whitespace by a single
underscore.  Used only to compare with `sanitizeCore`. -/
def specCollapseGo (inRun : Bool) : List Char → List Char
  | [] => []
  | c :: rest =>
    if isGoSpace c then
      (if inRun then specCollapseGo true rest else '_' :: specCollapseGo true rest)
    else c :: specCollapseGo false rest

/-- Modelled from the spec: full spec-described sanitizer pipeline. -/
def specSanitize (name : List Char) : List Char :=
  specCollapseGo false ((goTrimSpace name).filter keepChar)

/-! ### isTargetFile (root.go lines 80-85)

```go
func isTargetFile(filename string) bool {
    filename = strings.ToLower(filename)
    screenshotPattern := regexp.MustCompile(`screenshot`)
    dallePattern := regexp.MustCompile(`dall[eÃ©]?`)
    return screenshotPattern.MatchString(filename) || dallePattern.MatchString(filename)
}
```

The final character class of the dalle pattern is optional (`?`), so the
pattern matches a string exactly when the string contains `dall`; the model
uses that equivalent substring form.
-/

/-- The filename classifier on rune lists: lowercase, then match the two
patterns. -/
def isTargetFileCore (filename : List Char) : Bool :=
  containsSub ("screenshot".data) (filename.map goToLower) ||
    containsSub ("dall".data) (filename.map goToLower)

/-- The filename classifier on `String`, the source signature. -/
def isTargetFile (filename : String) : Bool :=
  isTargetFileCore filename.data

/-- Modelled from the spec: a name matches when it case-insensitively
contains `screenshot` or one of the dall-e/dalle variants (with optional
accented é).  Used only to compare with `isTargetFileCore`. -/
def specIsTarget (filename : List Char) : Bool :=
  containsSub ("screenshot".data) (filename.map goToLower) ||
    containsSub ("dalle".data) (filename.map goToLower) ||
    containsSub ("dallé".data) (filename.map goToLower) ||
    containsSub ("dall-e".data) (filename.map goToLower) ||
    containsSub ("dall-é".data) (filename.map goToLower)

/-! ### getDescriptionFromChatGPT (root.go lines 194-240)

The OpenAI client is the external collaborator: it is modelled as a function
from the prompt string sent to the outcome received — either a transport
error or the list of choice message contents of the response.
-/

/-- Text of the prompt template used when labels are available, split around
the `%s` verb of the `fmt.Sprintf` call (root.go lines 204-209). -/
def promptLabelsPrefix : List Char :=
  ("You are a creative assistant that generates human-like filenames for images based on their content.\n\nGiven the following labels describing an image:\n".data)

/-- Text after the `%s` verb of the labelled prompt template. -/
def promptLabelsSuffix : List Char :=
  ("\n\nUsing these labels, write a short, descriptive, imaginative, and human-friendly filename for the image (without file extension). There will be a large reward for the best, most human file name:".data)

/-- The constant creative-fallback prompt used when no labels are available
(root.go lines 211-216). -/
def fallbackPrompt : List Char :=
  ("You are a creative assistant that generates human-like filenames for images.\n\nAn image is provided, but no labels or descriptions are available.\n\nUsing your imagination, suggest a short, descriptive, and human-friendly filename for the image (without file extension). There will be a large reward for the best, most human file name. Don\x27t forget to be a human the output name MUST be short. \nFor example a screenshot of the youtube website, will have lots of descriptive and various interesting points but a good name would be \x27youtube_homepage\x27:".data)

/-- Prompt construction: `if len(labels) > 0` use the labelled template with
`strings.Join(labels, ", ")` interpolated, else the fallback prompt. -/
def buildPrompt (labels : List (List Char)) : List Char :=
  if labels.isEmpty then fallbackPrompt
  else promptLabelsPrefix ++ joinWith (", ".data) labels ++ promptLabelsSuffix

/-- The three error exits of `getDescriptionFromChatGPT`. -/
inductive ApiErr where
  | noKey : ApiErr
  | chatApiErr : ApiErr
  | noChoices : ApiErr
deriving DecidableEq, Repr

/-- Outcome of one `CreateChatCompletion` call: transport error, or the list
of `Message.Content` strings of the returned choices. -/
abbrev RemoteChat : Type := List Char → Except Unit (List (List Char))

/-- `getDescriptionFromChatGPT`: check the `OPENAI_API_KEY` credential, send
the constructed prompt, fail on transport error or an empty choice list,
otherwise return the first choice's content trimmed. -/
def getDescriptionFromChatGPT (apiKey : List Char) (labels : List (List Char))
    (remote : RemoteChat) : Except ApiErr (List Char) :=
  if apiKey.isEmpty then .error .noKey
  else
    match remote (buildPrompt labels) with
    | .error _ => .error .chatApiErr
    | .ok choices =>
      match choices with
      | c :: _ => .ok (goTrimSpace c)
      | [] => .error .noChoices

/-! ### Unix path semantics (`path/filepath`: Clean, Dir, Ext)

`filepath.Clean` is modelled by its documented rules: split on the
separator, drop empty and `.` elements, let `..` remove the preceding
non-`..` element (at the root, drop it; in a relative path with nothing to
remove, keep it), then re-join, yielding `.` for an empty relative result
and `/` for an empty rooted one. -/

/-- Prepend a character to the first component of a split. -/
def consHead (c : Char) : List (List Char) → List (List Char)
  | [] => [[c]]
  | h :: t => (c :: h) :: t

/-- Split a path on `/`; empty components are kept (Clean removes them). -/
def splitSlash : List Char → List (List Char)
  | [] => [[]]
  | c :: rest =>
    if c = '/' then [] :: splitSlash rest
    else consHead c (splitSlash rest)

/-- Join components with `/` between them. -/
def joinSlash : List (List Char) → List Char
  | [] => []
  | [x] => x
  | x :: y :: rest => x ++ '/' :: joinSlash (y :: rest)

/-- The `..` component. -/
def dd : List Char := ['.', '.']

/-- Effect of a `..` component on the output stack: at the root it is
dropped, in a relative path with only `..`s below it is kept, otherwise it
removes the previous component. -/
def ddStep (rooted : Bool) : List (List Char) → List (List Char)
  | [] => if rooted then [] else [dd]
  | t :: acc' => if t = dd then dd :: t :: acc' else acc'

/-- The component-normalisation loop of `Clean`.  `acc` is the output stack,
most recent component first. -/
def normGo (rooted : Bool) (acc : List (List Char)) : List (List Char) → List (List Char)
  | [] => acc.reverse
  | c :: rest =>
    if c = [] ∨ c = ['.'] then normGo rooted acc rest
    else if c = dd then normGo rooted (ddStep rooted acc) rest
    else normGo rooted (c :: acc) rest

/-- Render the normalised components back into a path string. -/
def renderPath (rooted : Bool) (cs : List (List Char)) : List Char :=
  match cs with
  | [] => if rooted then ['/'] else ['.']
  | _ :: _ => (if rooted then ['/'] else []) ++ joinSlash cs

/-- Model of `filepath.Clean` for Unix paths. -/
def pathClean (p : List Char) : List Char :=
  match p with
  | [] => ['.']
  | c :: rest => renderPath (c == '/') (normGo (c == '/') [] (splitSlash (c :: rest)))

/-- The prefix of a path up to and including its last separator (empty when
there is none): `path[:i+1]` of `filepath.Dir`. -/
def upToLastSlash (p : List Char) : List Char :=
  (p.reverse.dropWhile (fun c => !(c == '/'))).reverse

/-- Model of `filepath.Dir` for Unix paths: `Clean` of everything up to the
last separator. -/
def goDir (p : List Char) : List Char :=
  pathClean (upToLastSlash p)

/-- The backwards scan of `filepath.Ext`: walk from the end, stop at a
separator with no extension, return the suffix from the first `.` found. -/
def goExtGo (acc : List Char) : List Char → List Char
  | [] => []
  | c :: rest =>
    if c = '/' then []
    else if c = '.' then '.' :: acc
    else goExtGo (c :: acc) rest

/-- Model of `filepath.Ext` for Unix paths. -/
def goExt (p : List Char) : List Char :=
  goExtGo [] p.reverse

/-! ### renameFile (root.go lines 242-252) and the per-file orchestrator
step of searchDirectory (root.go lines 50-71) -/

/-- The new path of `renameFile`:
`fmt.Sprintf("%s/%s%s", filepath.Dir(path), sanitizeFileName(description), filepath.Ext(path))`. -/
def newNameCore (path description : List Char) : List Char :=
  goDir path ++ '/' :: (sanitizeCore description ++ goExt path)

/-- Result of `renameFile`: `os.Rename` success yields the renamed path; a
rename error is `log.Fatalf`, aborting the whole process. -/
inductive RenameOutcome where
  | renamedTo : List Char → RenameOutcome
  | fatalAbort : RenameOutcome
deriving DecidableEq, Repr

/-- `renameFile`, with the `os.Rename` outcome supplied by the environment. -/
def renameFile (path description : List Char) (osRenameOk : Bool) : RenameOutcome :=
  if osRenameOk then .renamedTo (newNameCore path description) else .fatalAbort

/-- Result delivered by `getLabelsFromImage` to the orchestrator: a label
list, or an error from the vision collaborator. -/
inductive DescriberResult where
  | ok : List (List Char) → DescriberResult
  | err : DescriberResult

/-- The fallback of root.go lines 53-56: on a describer error the
orchestrator logs and continues with `labels = []string{}`. -/
def labelsAfterDescriber : DescriberResult → List (List Char)
  | .ok ls => ls
  | .err => []

/-- Terminal state of one target file in the walk callback. -/
inductive FileOutcome where
  | suggesterFailed : FileOutcome
  | renamed : List Char → FileOutcome
  | keptOriginal : FileOutcome
  | runAborted : FileOutcome
deriving DecidableEq, Repr

/-- The per-target-file body of the `searchDirectory` walk callback, after
the `isTargetFile` guard: apply the describer fallback, call the suggester,
on error log and return (continue the walk), otherwise ask for confirmation
and rename on a `y` answer. -/
def processTarget (path : List Char) (descr : DescriberResult) (apiKey : List Char)
    (remote : RemoteChat) (userInput : List Char) (osRenameOk : Bool) : FileOutcome :=
  match getDescriptionFromChatGPT apiKey (labelsAfterDescriber descr) remote with
  | .error _ => .suggesterFailed
  | .ok description =>
    if userInput.map goToLower = ['y'] then
      match renameFile path description osRenameOk with
      | .renamedTo p => .renamed p
      | .fatalAbort => .runAborted
    else .keptOriginal

/-! ## Lemmas about strings and the sanitizer -/

theorem containsSub_iff {pat s : List Char} : containsSub pat s = true ↔ pat <:+: s := by
  induction s with
  | nil =>
    simp only [containsSub, List.isPrefixOf_iff_prefix, List.prefix_nil, List.infix_nil]
  | cons c rest ih =>
    simp only [containsSub, Bool.or_eq_true, List.isPrefixOf_iff_prefix, ih,
      List.infix_cons_iff]

theorem goTrimSpace_subset {l : List Char} {c : Char} (hc : c ∈ goTrimSpace l) : c ∈ l := by
  unfold goTrimSpace at hc
  rw [List.mem_reverse] at hc
  have h1 := List.dropWhile_subset (p := isGoSpace) hc
  rw [List.mem_reverse] at h1
  exact List.dropWhile_subset (p := isGoSpace) h1

theorem dropWhile_all_false {p : Char → Bool} {l : List Char}
    (h : ∀ a ∈ l, p a = false) : l.dropWhile p = l := by
  cases l with
  | nil => rfl
  | cons a t => simp [List.dropWhile_cons, h a (List.mem_cons_self a t)]

theorem goTrimSpace_eq_self {l : List Char}
    (h : ∀ a ∈ l, isGoSpace a = false) : goTrimSpace l = l := by
  unfold goTrimSpace
  rw [dropWhile_all_false h]
  rw [dropWhile_all_false (fun a ha => h a (List.mem_reverse.mp ha))]
  exact List.reverse_reverse l

theorem dropWhile_all_true {p : Char → Bool} {l : List Char}
    (h : ∀ a ∈ l, p a = true) : l.dropWhile p = [] := by
  induction l with
  | nil => rfl
  | cons a t ih =>
    rw [List.dropWhile_cons, if_pos (h a (List.mem_cons_self a t))]
    exact ih fun a ha => h a (List.mem_cons_of_mem _ ha)

theorem goTrimSpace_length_le (l : List Char) : (goTrimSpace l).length ≤ l.length := by
  unfold goTrimSpace
  rw [List.length_reverse]
  calc ((l.dropWhile isGoSpace).reverse.dropWhile isGoSpace).length
      ≤ (l.dropWhile isGoSpace).reverse.length :=
        (List.dropWhile_sublist isGoSpace).length_le
    _ = (l.dropWhile isGoSpace).length := List.length_reverse _
    _ ≤ l.length := (List.dropWhile_sublist isGoSpace).length_le

theorem map_nonspace_id {l : List Char} (h : ∀ c ∈ l, (c == ' ') = false) :
    l.map (fun c => if c == ' ' then '_' else c) = l := by
  induction l with
  | nil => rfl
  | cons a t ih =>
    rw [List.map_cons, if_neg (by simp [h a (List.mem_cons_self a t)]),
      ih fun c hc => h c (List.mem_cons_of_mem _ hc)]

theorem keep_not_space {c : Char} (hk : keepChar c = true) (hs : c ≠ ' ') :
    (isGoWordChar c = true ∨ c = '-') ∧ isGoSpace c = false ∧ c ≠ '/' ∧ c ≠ '.' := by
  have hwd : isGoWordChar c = true ∨ c = '-' := by
    rcases Bool.or_eq_true _ _ |>.mp hk with h | h
    · rcases Bool.or_eq_true _ _ |>.mp h with h' | h'
      · exact Or.inl h'
      · exact Or.inr (by simpa using h')
    · exact absurd (by simpa using h) hs
  refine ⟨hwd, ?_, ?_, ?_⟩
  · by_contra hsp
    rw [Bool.not_eq_false] at hsp
    unfold isGoSpace at hsp
    rcases hwd with hw | rfl
    · simp only [Bool.or_eq_true, beq_iff_eq] at hsp
      rcases hsp with ((((rfl | rfl) | rfl) | rfl) | rfl) | rfl <;>
        simp [isGoWordChar] at hw
    · simp at hsp
  · rintro rfl
    rcases hwd with hw | h
    · simp [isGoWordChar] at hw
    · simp at h
  · rintro rfl
    rcases hwd with hw | h
    · simp [isGoWordChar] at hw
    · simp at h

theorem san_char_props {s : List Char} {c : Char} (hc : c ∈ sanitizeCore s) :
    keepChar c = true ∧ isGoSpace c = false ∧ c ≠ '/' ∧ c ≠ '.' := by
  unfold sanitizeCore at hc
  obtain ⟨b, hb, hfb⟩ := List.mem_map.mp hc
  have hbk : keepChar b = true :=
    List.of_mem_filter (goTrimSpace_subset hb)
  by_cases hsp : b = ' '
  · subst hsp
    simp only [beq_self_eq_true, if_pos] at hfb
    subst hfb
    refine ⟨by decide, by decide, by decide, by decide⟩
  · rw [if_neg (by simp [hsp])] at hfb
    subst hfb
    obtain ⟨_, h2, h3, h4⟩ := keep_not_space hbk hsp
    exact ⟨hbk, h2, h3, h4⟩

theorem san_word_or_hyphen {s : List Char} {c : Char} (hc : c ∈ sanitizeCore s) :
    (isGoWordChar c = true ∨ c = '-') ∧ c ≠ ' ' ∧ c ≠ '/' ∧ c ≠ '.' := by
  obtain ⟨h1, h2, h3, h4⟩ := san_char_props hc
  have hs : c ≠ ' ' := by rintro rfl; simp [isGoSpace] at h2
  exact ⟨(keep_not_space h1 hs).1, hs, h3, h4⟩

theorem sanitizeCore_idem (s : List Char) : sanitizeCore (sanitizeCore s) = sanitizeCore s := by
  conv_lhs => rw [sanitizeCore]
  rw [List.filter_eq_self.mpr (fun c hc => (san_char_props hc).1)]
  rw [goTrimSpace_eq_self (fun c hc => (san_char_props hc).2.1)]
  exact map_nonspace_id fun c hc => by
    simp only [beq_eq_false_iff_ne, ne_eq]
    exact (san_word_or_hyphen hc).2.1

theorem sanitizeCore_length_le (s : List Char) : (sanitizeCore s).length ≤ s.length := by
  unfold sanitizeCore
  rw [List.length_map]
  calc (goTrimSpace (s.filter keepChar)).length
      ≤ (s.filter keepChar).length := goTrimSpace_length_le _
    _ ≤ s.length := s.length_filter_le keepChar

theorem sanitizeCore_all_words {s : List Char} (hs : ∀ c ∈ s, isGoWordChar c = false ∧ c ≠ '-') :
    sanitizeCore s = [] := by
  unfold sanitizeCore
  have hall : ∀ c ∈ s.filter keepChar, isGoSpace c = true := by
    intro c hc
    have hk : keepChar c = true := List.of_mem_filter hc
    have hmem : c ∈ s := List.mem_of_mem_filter hc
    obtain ⟨hw, hh⟩ := hs c hmem
    have : c = ' ' := by
      rcases Bool.or_eq_true _ _ |>.mp hk with h | h
      · rcases Bool.or_eq_true _ _ |>.mp h with h' | h'
        · exact absurd h' (by simp [hw])
        · exact absurd (by simpa using h') hh
      · simpa using h
    simp [this, isGoSpace]
  unfold goTrimSpace
  rw [dropWhile_all_true hall]
  rfl

/-! ## Lemmas about the path model -/

theorem splitSlash_cons (c : Char) (l : List Char) :
    splitSlash (c :: l) =
      if c = '/' then [] :: splitSlash l else consHead c (splitSlash l) := rfl

theorem normGo_nil (rooted : Bool) (acc : List (List Char)) :
    normGo rooted acc [] = acc.reverse := rfl

theorem normGo_cons (rooted : Bool) (acc : List (List Char)) (c : List Char)
    (rest : List (List Char)) :
    normGo rooted acc (c :: rest) =
      if c = [] ∨ c = ['.'] then normGo rooted acc rest
      else if c = dd then normGo rooted (ddStep rooted acc) rest
      else normGo rooted (c :: acc) rest := rfl

theorem splitSlash_ne_nil (p : List Char) : splitSlash p ≠ [] := by
  cases p with
  | nil => simp [splitSlash]
  | cons c rest =>
    unfold splitSlash
    split
    · simp
    · cases splitSlash rest <;> simp [consHead]

theorem mem_splitSlash_no_slash {p : List Char} {c : List Char}
    (hc : c ∈ splitSlash p) : '/' ∉ c := by
  induction p generalizing c with
  | nil => simp [splitSlash] at hc; simp [hc]
  | cons a rest ih =>
    unfold splitSlash at hc
    split at hc
    · rcases List.mem_cons.mp hc with rfl | h
      · simp
      · exact ih h
    · rename_i ha
      cases hsp : splitSlash rest with
      | nil => exact absurd hsp (splitSlash_ne_nil rest)
      | cons h t =>
        rw [hsp, consHead] at hc
        rcases List.mem_cons.mp hc with rfl | hmem
        · intro hin
          rcases List.mem_cons.mp hin with rfl | hin'
          · exact ha rfl
          · exact ih (hsp ▸ List.mem_cons_self h t) hin'
        · exact ih (hsp ▸ List.mem_cons_of_mem h hmem)

theorem consHead_append {c : Char} {l m : List (List Char)} (hl : l ≠ []) :
    consHead c (l ++ m) = consHead c l ++ m := by
  cases l with
  | nil => exact absurd rfl hl
  | cons h t => simp [consHead]

theorem splitSlash_append_slash (x : List Char) :
    splitSlash (x ++ ['/']) = splitSlash x ++ [[]] := by
  induction x with
  | nil => simp [splitSlash]
  | cons c x' ih =>
    simp only [List.cons_append, splitSlash_cons]
    split
    · rw [ih]
      rfl
    · rw [ih, consHead_append (splitSlash_ne_nil x')]

theorem splitSlash_no_slash {x : List Char} (hx : '/' ∉ x) : splitSlash x = [x] := by
  induction x with
  | nil => rfl
  | cons c x' ih =>
    have hc : ¬ c = '/' := fun h => hx (h ▸ List.mem_cons_self c x')
    rw [splitSlash_cons, if_neg hc, ih fun h => hx (List.mem_cons_of_mem c h)]
    rfl

theorem splitSlash_block {x r : List Char} (hx : '/' ∉ x) :
    splitSlash (x ++ '/' :: r) = x :: splitSlash r := by
  induction x with
  | nil => simp [splitSlash_cons]
  | cons c x' ih =>
    have hc : ¬ c = '/' := fun h => hx (h ▸ List.mem_cons_self c x')
    simp only [List.cons_append]
    rw [splitSlash_cons, if_neg hc, ih fun h => hx (List.mem_cons_of_mem c h)]
    rfl

theorem splitSlash_joinSlash {cs : List (List Char)} (hne : cs ≠ [])
    (hns : ∀ c ∈ cs, '/' ∉ c) : splitSlash (joinSlash cs) = cs := by
  induction cs with
  | nil => exact absurd rfl hne
  | cons x t ih =>
    cases t with
    | nil => exact splitSlash_no_slash (hns x (List.mem_cons_self x []))
    | cons y t' =>
      rw [joinSlash, splitSlash_block (hns x (List.mem_cons_self x _))]
      rw [ih (by simp) fun c hc => hns c (List.mem_cons_of_mem x hc)]

theorem normGo_append_nil (rooted : Bool) (cs : List (List Char)) :
    ∀ acc, normGo rooted acc (cs ++ [[]]) = normGo rooted acc cs := by
  induction cs with
  | nil =>
    intro acc
    rw [List.nil_append, normGo_cons, if_pos (Or.inl rfl)]
  | cons c rest ih =>
    intro acc
    rw [List.cons_append, normGo_cons, normGo_cons]
    by_cases h1 : c = [] ∨ c = ['.']
    · rw [if_pos h1, if_pos h1, ih]
    · rw [if_neg h1, if_neg h1]
      by_cases h2 : c = dd
      · rw [if_pos h2, if_pos h2, ih]
      · rw [if_neg h2, if_neg h2, ih]

/-- A component that survives normalisation: nonempty, not `.`, no
separator inside. -/
def GoodComp (c : List Char) : Prop := c ≠ [] ∧ c ≠ ['.'] ∧ '/' ∉ c

/-- Shape of a normalised component list split as leading `..`s plus the
rest; a rooted path has no `..`s at all. -/
def WfParts (rooted : Bool) (ds rest : List (List Char)) : Prop :=
  (∀ c ∈ ds, c = dd) ∧ (∀ c ∈ rest, c ≠ dd) ∧ (rooted = true → ds = [])

/-- Well-formed (normalised) component list. -/
def WfComps (rooted : Bool) (cs : List (List Char)) : Prop :=
  (∀ c ∈ cs, GoodComp c) ∧ ∃ ds rest, cs = ds ++ rest ∧ WfParts rooted ds rest

/-- Well-formed output stack of `normGo` (top first, so the `..`s sit at the
bottom). -/
def WfStack (rooted : Bool) (acc : List (List Char)) : Prop :=
  (∀ c ∈ acc, GoodComp c) ∧ ∃ ds rest, acc = rest ++ ds ∧ WfParts rooted ds rest

theorem goodComp_dd : GoodComp dd := by
  refine ⟨by decide, by decide, by decide⟩

theorem ddStep_wf {rooted : Bool} {acc : List (List Char)} (h : WfStack rooted acc) :
    WfStack rooted (ddStep rooted acc) := by
  obtain ⟨hGood, ds, rest, rfl, hds, hrest, hroot⟩ := h
  cases rest with
  | nil =>
    cases ds with
    | nil =>
      simp only [List.nil_append, ddStep]
      cases rooted with
      | true => exact ⟨by simp, [], [], by simp, by simp, by simp, fun _ => rfl⟩
      | false =>
        refine ⟨?_, [dd], [], by simp, by simp, by simp, by simp⟩
        intro c hc
        rw [List.mem_singleton.mp hc]
        exact goodComp_dd
    | cons t ds' =>
      have ht : t = dd := hds t (List.mem_cons_self t ds')
      have hroot' : rooted = false := by
        cases rooted with
        | true => exact absurd (hroot rfl) (by simp)
        | false => rfl
      subst hroot'
      rw [List.nil_append, ddStep, if_pos ht]
      refine ⟨?_, dd :: t :: ds', [], by simp, ?_, by simp, by simp⟩
      · intro c hc
        rcases List.mem_cons.mp hc with rfl | hc'
        · exact goodComp_dd
        · exact hGood c hc'
      · intro c hc
        rcases List.mem_cons.mp hc with rfl | hc'
        · rfl
        · exact hds c hc'
  | cons t rest' =>
    have ht : t ≠ dd := hrest t (List.mem_cons_self t rest')
    rw [List.cons_append, ddStep, if_neg ht]
    exact ⟨fun c hc => hGood c (List.mem_cons_of_mem t hc), ds, rest',
      rfl, hds, fun c hc => hrest c (List.mem_cons_of_mem t hc), hroot⟩

theorem wfStack_reverse {rooted : Bool} {acc : List (List Char)}
    (h : WfStack rooted acc) : WfComps rooted acc.reverse := by
  obtain ⟨hGood, ds, rest, rfl, hds, hrest, hroot⟩ := h
  refine ⟨fun c hc => hGood c (List.mem_reverse.mp hc),
    ds.reverse, rest.reverse, by simp, fun c hc => hds c (List.mem_reverse.mp hc),
    fun c hc => hrest c (List.mem_reverse.mp hc), fun hr => by simp [hroot hr]⟩

theorem normGo_wf {rooted : Bool} (cs : List (List Char)) :
    ∀ acc, (∀ c ∈ cs, '/' ∉ c) → WfStack rooted acc →
      WfComps rooted (normGo rooted acc cs) := by
  induction cs with
  | nil =>
    intro acc _ hacc
    rw [normGo_nil]
    exact wfStack_reverse hacc
  | cons c rest ih =>
    intro acc hns hacc
    rw [normGo_cons]
    by_cases h1 : c = [] ∨ c = ['.']
    · rw [if_pos h1]
      exact ih acc (fun x hx => hns x (List.mem_cons_of_mem c hx)) hacc
    · rw [if_neg h1]
      by_cases h2 : c = dd
      · rw [if_pos h2]
        exact ih _ (fun x hx => hns x (List.mem_cons_of_mem c hx)) (ddStep_wf hacc)
      · rw [if_neg h2]
        obtain ⟨hGood, ds, rs, rfl, hds, hrs, hroot⟩ := hacc
        refine ih _ (fun x hx => hns x (List.mem_cons_of_mem c hx)) ?_
        push_neg at h1
        refine ⟨?_, ds, c :: rs, by simp, hds, ?_, hroot⟩
        · intro x hx
          rcases List.mem_cons.mp hx with rfl | hx'
          · exact ⟨h1.1, h1.2, hns x (List.mem_cons_self x rest)⟩
          · exact hGood x hx'
        · intro x hx
          rcases List.mem_cons.mp hx with rfl | hx'
          · exact h2
          · exact hrs x hx'

theorem normGo_push_all (rooted : Bool) (rest : List (List Char)) :
    ∀ acc, (∀ c ∈ rest, GoodComp c ∧ c ≠ dd) →
      normGo rooted acc rest = acc.reverse ++ rest := by
  induction rest with
  | nil => intro acc _; rw [normGo_nil, List.append_nil]
  | cons c r ih =>
    intro acc h
    obtain ⟨⟨hne, hdot, _⟩, hdd⟩ := h c (List.mem_cons_self c r)
    rw [normGo_cons, if_neg (by simp [hne, hdot]), if_neg hdd,
      ih (c :: acc) (fun x hx => h x (List.mem_cons_of_mem c hx))]
    simp

theorem ddStep_all_dd {acc : List (List Char)} (h : ∀ c ∈ acc, c = dd) :
    ddStep false acc = dd :: acc := by
  cases acc with
  | nil => simp [ddStep]
  | cons t acc' => rw [ddStep, if_pos (h t (List.mem_cons_self t acc'))]

theorem normGo_dd_block (ds : List (List Char)) :
    ∀ acc rest, (∀ c ∈ ds, c = dd) → (∀ c ∈ acc, c = dd) →
      normGo false acc (ds ++ rest) = normGo false (ds.reverse ++ acc) rest := by
  induction ds with
  | nil => intro acc rest _ _; simp
  | cons c ds' ih =>
    intro acc rest hds hacc
    have hc : c = dd := hds c (List.mem_cons_self c ds')
    subst hc
    rw [List.cons_append, normGo_cons, if_neg (by decide), if_pos rfl,
      ddStep_all_dd hacc]
    rw [ih (dd :: acc) rest (fun x hx => hds x (List.mem_cons_of_mem _ hx))
      (fun x hx => by
        rcases List.mem_cons.mp hx with rfl | hx'
        · rfl
        · exact hacc x hx')]
    simp

theorem normGo_fixpoint {rooted : Bool} {cs : List (List Char)}
    (h : WfComps rooted cs) : normGo rooted [] cs = cs := by
  obtain ⟨hGood, ds, rest, rfl, hds, hrest, hroot⟩ := h
  cases rooted with
  | true =>
    rw [hroot rfl, List.nil_append]
    rw [normGo_push_all true rest []
      (fun c hc => ⟨hGood c (by rw [hroot rfl, List.nil_append]; exact hc), hrest c hc⟩)]
    rfl
  | false =>
    rw [normGo_dd_block ds [] rest hds (by simp), List.append_nil]
    rw [normGo_push_all false rest ds.reverse
      (fun c hc => ⟨hGood c (List.mem_append_right ds hc), hrest c hc⟩)]
    simp

theorem joinSlash_ne_nil {cs : List (List Char)} (h0 : cs ≠ [])
    (h1 : ∀ c ∈ cs, c ≠ []) : joinSlash cs ≠ [] := by
  cases cs with
  | nil => exact absurd rfl h0
  | cons x t =>
    cases t with
    | nil => exact h1 x (List.mem_cons_self x [])
    | cons y t' => simp [joinSlash]

theorem renderPath_ne_nil {rooted : Bool} {cs : List (List Char)}
    (h : WfComps rooted cs) : renderPath rooted cs ≠ [] := by
  cases cs with
  | nil => cases rooted <;> simp [renderPath]
  | cons c t =>
    cases rooted with
    | true => simp [renderPath]
    | false =>
      rw [renderPath]
      simp only [if_neg (by simp : ¬ (false = true)), List.nil_append]
      exact joinSlash_ne_nil (by simp) fun x hx => (h.1 x hx).1

theorem joinSlash_head {c : List Char} {t : List (List Char)} :
    joinSlash (c :: t) = c ++ joinSlash t ∨ joinSlash (c :: t) = c ++ '/' :: joinSlash t := by
  cases t with
  | nil => left; simp [joinSlash]
  | cons y t' => right; rfl

theorem renderPath_head_not_slash {cs : List (List Char)}
    (h : WfComps false cs) (hcs : cs ≠ []) :
    ∃ a as, renderPath false cs = a :: as ∧ a ≠ '/' := by
  cases cs with
  | nil => exact absurd rfl hcs
  | cons c t =>
    obtain ⟨hne, _, hns⟩ := h.1 c (List.mem_cons_self c t)
    cases c with
    | nil => exact absurd rfl hne
    | cons a c' =>
      have ha : a ≠ '/' := fun hh => hns (hh ▸ List.mem_cons_self a c')
      rw [renderPath]
      simp only [if_neg (by simp : ¬ (false = true)), List.nil_append]
      rcases joinSlash_head (c := a :: c') (t := t) with hj | hj
      · exact ⟨a, c' ++ joinSlash t, by rw [hj]; rfl, ha⟩
      · exact ⟨a, c' ++ '/' :: joinSlash t, by rw [hj]; rfl, ha⟩

theorem pathClean_cons (c : Char) (rest : List Char) :
    pathClean (c :: rest) =
      renderPath (c == '/') (normGo (c == '/') [] (splitSlash (c :: rest))) := rfl

theorem wfStack_nil (rooted : Bool) : WfStack rooted ([] : List (List Char)) :=
  ⟨by simp, [], [], by simp, by simp, by simp, fun _ => rfl⟩

theorem wfComps_nil (rooted : Bool) : WfComps rooted ([] : List (List Char)) :=
  ⟨by simp, [], [], by simp, by simp, by simp, fun _ => rfl⟩

theorem pathClean_render {rooted : Bool} {cs : List (List Char)}
    (h : WfComps rooted cs) : pathClean (renderPath rooted cs) = renderPath rooted cs := by
  cases cs with
  | nil =>
    cases rooted with
    | true => rfl
    | false => rfl
  | cons c t =>
    have hnoslash : ∀ x ∈ c :: t, '/' ∉ x := fun x hx => (h.1 x hx).2.2
    cases rooted with
    | true =>
      have hr : renderPath true (c :: t) = '/' :: joinSlash (c :: t) := by
        rw [renderPath]
        simp
      rw [hr, pathClean_cons]
      have hb : ('/' == '/') = true := rfl
      rw [hb, splitSlash_cons, if_pos rfl, splitSlash_joinSlash (by simp) hnoslash]
      rw [normGo_cons, if_pos (Or.inl rfl), normGo_fixpoint h]
      exact hr
    | false =>
      have hfr : renderPath false (c :: t) = joinSlash (c :: t) := by
        rw [renderPath]
        simp
      obtain ⟨a, as, hrender, ha⟩ := renderPath_head_not_slash h (by simp)
      have hj : joinSlash (c :: t) = a :: as := by rw [← hfr, hrender]
      have hbeq : (a == '/') = false := by simp [ha]
      rw [hrender, pathClean_cons, hbeq, ← hj,
        splitSlash_joinSlash (by simp) hnoslash, normGo_fixpoint h]
      exact hfr

theorem pathClean_shape (p : List Char) :
    ∃ rooted cs, pathClean p = renderPath rooted cs ∧ WfComps rooted cs := by
  cases p with
  | nil => exact ⟨false, [], rfl, wfComps_nil false⟩
  | cons c rest =>
    exact ⟨c == '/', normGo (c == '/') [] (splitSlash (c :: rest)), rfl,
      normGo_wf _ [] (fun x hx => mem_splitSlash_no_slash hx) (wfStack_nil _)⟩

theorem pathClean_idem (p : List Char) : pathClean (pathClean p) = pathClean p := by
  obtain ⟨rooted, cs, heq, hwf⟩ := pathClean_shape p
  rw [heq, pathClean_render hwf]

theorem pathClean_ne_nil (p : List Char) : pathClean p ≠ [] := by
  obtain ⟨rooted, cs, heq, hwf⟩ := pathClean_shape p
  rw [heq]
  exact renderPath_ne_nil hwf

theorem pathClean_append_slash {p : List Char} (hp : p ≠ []) :
    pathClean (p ++ ['/']) = pathClean p := by
  cases p with
  | nil => exact absurd rfl hp
  | cons c rest =>
    rw [List.cons_append, pathClean_cons, pathClean_cons]
    rw [← List.cons_append, splitSlash_append_slash (c :: rest),
      normGo_append_nil]

theorem upToLastSlash_append {x y : List Char} (hy : '/' ∉ y) :
    upToLastSlash (x ++ '/' :: y) = x ++ ['/'] := by
  unfold upToLastSlash
  rw [List.reverse_append, List.reverse_cons, List.append_assoc]
  rw [List.dropWhile_append_of_pos
    (fun a ha => by simp; exact fun h => hy (h ▸ List.mem_reverse.mp ha))]
  rw [List.singleton_append, List.dropWhile_cons]
  simp

theorem goExtGo_cons (acc : List Char) (c : Char) (rest : List Char) :
    goExtGo acc (c :: rest) =
      if c = '/' then []
      else if c = '.' then '.' :: acc
      else goExtGo (c :: acc) rest := rfl

theorem goExtGo_no_slash {r : List Char} :
    ∀ {acc : List Char}, '/' ∉ acc → '/' ∉ goExtGo acc r := by
  induction r with
  | nil => intro acc _; simp [goExtGo]
  | cons c rest ih =>
    intro acc hacc
    rw [goExtGo_cons]
    by_cases h1 : c = '/'
    · rw [if_pos h1]; simp
    · rw [if_neg h1]
      by_cases h2 : c = '.'
      · rw [if_pos h2]
        intro hmem
        rcases List.mem_cons.mp hmem with h | h
        · exact h1 (h2 ▸ h.symm ▸ rfl)
        · exact hacc h
      · rw [if_neg h2]
        exact ih fun hmem => by
          rcases List.mem_cons.mp hmem with h | h
          · exact h1 h.symm
          · exact hacc h

theorem goExt_no_slash (p : List Char) : '/' ∉ goExt p :=
  goExtGo_no_slash (by simp)

theorem goExtGo_shape {r : List Char} :
    ∀ {acc : List Char}, (∀ c ∈ acc, c ≠ '.' ∧ c ≠ '/') →
      goExtGo acc r = [] ∨
        ∃ t, goExtGo acc r = '.' :: t ∧ ∀ c ∈ t, c ≠ '.' ∧ c ≠ '/' := by
  induction r with
  | nil => intro acc _; left; rfl
  | cons c rest ih =>
    intro acc hacc
    rw [goExtGo_cons]
    by_cases h1 : c = '/'
    · rw [if_pos h1]; left; rfl
    · rw [if_neg h1]
      by_cases h2 : c = '.'
      · rw [if_pos h2]
        right
        exact ⟨acc, rfl, hacc⟩
      · rw [if_neg h2]
        exact ih fun x hx => by
          rcases List.mem_cons.mp hx with rfl | hx'
          · exact ⟨h2, h1⟩
          · exact hacc x hx'

theorem goExt_shape (p : List Char) :
    goExt p = [] ∨ ∃ t, goExt p = '.' :: t ∧ ∀ c ∈ t, c ≠ '.' ∧ c ≠ '/' :=
  goExtGo_shape (by simp)

theorem goExtGo_skip {xs : List Char} :
    ∀ (acc rest : List Char), (∀ c ∈ xs, c ≠ '.' ∧ c ≠ '/') →
      goExtGo acc (xs.reverse ++ rest) = goExtGo (xs ++ acc) rest := by
  induction xs with
  | nil => intro acc rest _; rfl
  | cons x xs' ih =>
    intro acc rest h
    rw [List.reverse_cons, List.append_assoc,
      ih acc ([x] ++ rest) (fun c hc => h c (List.mem_cons_of_mem x hc))]
    obtain ⟨hd, hs⟩ := h x (List.mem_cons_self x xs')
    rw [List.singleton_append, goExtGo_cons, if_neg hs, if_neg hd]
    rfl

theorem san_no_dot_slash {d : List Char} :
    ∀ c ∈ sanitizeCore d, c ≠ '.' ∧ c ≠ '/' := fun _c hc =>
  ⟨(san_char_props hc).2.2.2, (san_char_props hc).2.2.1⟩

theorem goDir_newName (p d : List Char) : goDir (newNameCore p d) = goDir p := by
  have hy : '/' ∉ sanitizeCore d ++ goExt p := by
    intro hmem
    rcases List.mem_append.mp hmem with h | h
    · exact (san_char_props h).2.2.1 rfl
    · exact goExt_no_slash p h
  rw [newNameCore, goDir, upToLastSlash_append hy]
  rw [pathClean_append_slash (show goDir p ≠ [] by rw [goDir]; exact pathClean_ne_nil _)]
  rw [goDir, pathClean_idem]

theorem reverse_newName (p d : List Char) :
    (newNameCore p d).reverse =
      (goExt p).reverse ++ ((sanitizeCore d).reverse ++ '/' :: (goDir p).reverse) := by
  rw [newNameCore]
  simp [List.reverse_append, List.reverse_cons, List.append_assoc]

theorem goExt_newName (p d : List Char) : goExt (newNameCore p d) = goExt p := by
  rw [goExt, reverse_newName]
  rcases goExt_shape p with hnil | ⟨t, ht, htc⟩
  · rw [hnil]
    rw [List.reverse_nil, List.nil_append, goExtGo_skip _ _ san_no_dot_slash]
    rw [goExtGo_cons, if_pos rfl]
  · rw [ht, List.reverse_cons, List.append_assoc, List.singleton_append]
    rw [goExtGo_skip _ _ htc, goExtGo_cons, if_neg (by decide), if_pos rfl]
    rw [List.append_nil]

theorem containsSub_of_prefix_trans {a b s : List Char} (hab : a <+: b)
    (h : containsSub b s = true) : containsSub a s = true :=
  containsSub_iff.mpr (hab.isInfix.trans (containsSub_iff.mp h))

/-! ## Claim theorems -/

/-- C2, counterexample.  The claim says `sanitizeFileName` replaces each run
of consecutive whitespace with a single underscore.  On the input
`"a  b"` (two spaces) the code produces `"a__b"` — one underscore per
space — while the pipeline described by the spec (`specSanitize`) produces
`"a_b"`, so the claim as stated is false. -/
theorem c2_sanitizer_counterexample :
    sanitizeFileName "a  b" = "a__b" ∧
    String.mk (specSanitize ("a  b".data)) = "a_b" ∧
    (sanitizeFileName "a  b" == String.mk (specSanitize ("a  b".data))) = false :=
  ⟨rfl, rfl, by decide⟩

/-- C2, amended.  `sanitizeFileName` first strips every character that is
not a word character, hyphen, or space, then trims leading/trailing
whitespace, then replaces each single space with an underscore (a run of k
spaces becomes k underscores).  It is total and deterministic, maps the
empty string to the empty string, maps `"My Photo!! (2024)"` to
`"My_Photo_2024"`, never lengthens its input, and leaves no space in the
output. -/
theorem c2_sanitizer_amended :
    sanitizeFileName "" = "" ∧
    sanitizeFileName "My Photo!! (2024)" = "My_Photo_2024" ∧
    sanitizeFileName "a  b" = "a__b" ∧
    (∀ s : List Char, (sanitizeCore s).length ≤ s.length) ∧
    (∀ s : List Char, (sanitizeCore s).all (fun c => !(c == ' ')) = true) := by
  refine ⟨rfl, rfl, rfl, sanitizeCore_length_le, fun s => ?_⟩
  rw [List.all_eq_true]
  intro c hc
  simp only [Bool.not_eq_true', beq_eq_false_iff_ne, ne_eq]
  exact (san_word_or_hyphen hc).2.1

/-- C7.  The sanitizer is idempotent: sanitizing twice equals sanitizing
once, for every string. -/
theorem c7_sanitizeFileName_idempotent (x : String) :
    sanitizeFileName (sanitizeFileName x) = sanitizeFileName x := by
  unfold sanitizeFileName
  rw [show (String.mk (sanitizeCore x.data)).data = sanitizeCore x.data from rfl]
  rw [sanitizeCore_idem]

/-- C10.  Every character of the sanitizer's output is an ASCII word
character or a hyphen — never a space, a path separator, or a dot — so the
rename target keeps the original directory and extension boundary; and an
input with no word or hyphen characters sanitizes to the empty string, in
which case the constructed file name is the original directory joined with
just the original extension (a dot-file). -/
theorem c10_sanitizer_output_chars :
    (∀ (s : List Char) (c : Char), c ∈ sanitizeCore s →
        (isGoWordChar c = true ∨ c = '-') ∧ c ≠ ' ' ∧ c ≠ '/' ∧ c ≠ '.') ∧
    (∀ s : List Char, (∀ c ∈ s, isGoWordChar c = false ∧ c ≠ '-') →
        sanitizeCore s = []) ∧
    (∀ path s : List Char, (∀ c ∈ s, isGoWordChar c = false ∧ c ≠ '-') →
        newNameCore path s = goDir path ++ '/' :: goExt path) := by
  refine ⟨fun s c hc => san_word_or_hyphen hc,
    fun s hs => sanitizeCore_all_words hs, ?_⟩
  intro path s hs
  rw [newNameCore, sanitizeCore_all_words hs, List.nil_append]

/-- C10, witness at a concrete input made of punctuation only. -/
theorem c10_sanitizer_output_chars_witness :
    (∀ c ∈ ("(!)??".data), isGoWordChar c = false ∧ c ≠ '-') ∧
      sanitizeCore ("(!)??".data) = [] :=
  ⟨by decide, c10_sanitizer_output_chars.2.1 _ (by decide)⟩

/-- C4, counterexample.  The claim's characterisation ("contains screenshot
or a dall-e/dalle variant") fails: the classifier also accepts
`"dalliance.png"`, which contains none of the dalle variants, because the
final character class of the pattern `dall[eé]?` is optional and the bare
substring `dall` already matches. -/
theorem c4_classifier_counterexample :
    isTargetFile "dalliance.png" = true ∧
    specIsTarget ("dalliance.png".data) = false :=
  ⟨by decide, by decide⟩

/-- C4, amended.  The classifier accepts a filename exactly when its
lowercased form contains `"screenshot"` or contains `"dall"` (the final
e/é of the dalle pattern is optional, so bare `"dall"` suffices).  In
particular it accepts every filename containing `"screenshot"` in any
casing, accepts everything the spec's variant predicate accepts, rejects
`"logo.png"`, and (beyond the spec predicate) accepts `"dall.png"`. -/
theorem c4_classifier_amended :
    (∀ f : List Char, containsSub ("screenshot".data) (f.map goToLower) = true →
        isTargetFileCore f = true) ∧
    (∀ f : List Char, specIsTarget f = true → isTargetFileCore f = true) ∧
    isTargetFile "logo.png" = false ∧
    isTargetFile "dall.png" = true := by
  refine ⟨?_, ?_, by decide, by decide⟩
  · intro f h
    unfold isTargetFileCore
    rw [h, Bool.true_or]
  · intro f h
    unfold specIsTarget at h
    unfold isTargetFileCore
    simp only [Bool.or_eq_true] at h
    rcases h with ((((h | h) | h) | h) | h)
    · rw [h, Bool.true_or]
    · rw [containsSub_of_prefix_trans
        (show ("dall".data) <+: ("dalle".data) from ⟨['e'], rfl⟩) h, Bool.or_true]
    · rw [containsSub_of_prefix_trans
        (show ("dall".data) <+: ("dallé".data) from ⟨['é'], rfl⟩) h, Bool.or_true]
    · rw [containsSub_of_prefix_trans
        (show ("dall".data) <+: ("dall-e".data) from ⟨("-e".data), rfl⟩) h, Bool.or_true]
    · rw [containsSub_of_prefix_trans
        (show ("dall".data) <+: ("dall-é".data) from ⟨("-é".data), rfl⟩) h, Bool.or_true]

/-- C4, witness: an upper-case screenshot name is accepted through the
amended theorem's first clause. -/
theorem c4_classifier_amended_witness :
    containsSub ("screenshot".data) (("SCREENSHOT 2.PNG".data).map goToLower) = true ∧
    isTargetFileCore ("SCREENSHOT 2.PNG".data) = true :=
  ⟨by decide, c4_classifier_amended.1 _ (by decide)⟩

/-- C1, counterexample.  On a describer error the orchestrator does not
substitute the base name stripped of its extension: for the file
`Screenshot_2024.png` the claim predicts the label list
`["Screenshot_2024"]`, but root.go line 55 sets `labels = []string{}`. -/
theorem c1_describer_fallback_counterexample :
    labelsAfterDescriber DescriberResult.err = [] ∧
    (labelsAfterDescriber DescriberResult.err == [("Screenshot_2024".data)]) = false :=
  ⟨rfl, by decide⟩

/-- C1, amended.  When the Content Describer fails the run does not crash:
the orchestrator logs the error and substitutes the EMPTY label list — not
the file's base name — before calling the Name Suggester, so processing
continues exactly as for an empty label list and the suggester uses its
creative fallback prompt. -/
theorem c1_describer_fallback_amended :
    labelsAfterDescriber DescriberResult.err = [] ∧
    (∀ (path apiKey : List Char) (remote : RemoteChat) (input : List Char) (ok : Bool),
        processTarget path DescriberResult.err apiKey remote input ok =
          processTarget path (DescriberResult.ok []) apiKey remote input ok) ∧
    buildPrompt (labelsAfterDescriber DescriberResult.err) = fallbackPrompt :=
  ⟨rfl, fun _ _ _ _ _ => rfl, rfl⟩

/-- C3, counterexample.  The success path enforces no length bound: with a
response whose first choice content is 40 characters long, the suggester
returns all 40 characters, so the returned name is not shorter than 40. -/
theorem c3_length_counterexample :
    getDescriptionFromChatGPT ("k".data) []
        (fun _ => Except.ok [("0123456789012345678901234567890123456789".data)]) =
      Except.ok ("0123456789012345678901234567890123456789".data) ∧
    ("0123456789012345678901234567890123456789".data).length = 40 :=
  ⟨rfl, rfl⟩

/-- C3, amended.  On its success path the Name Suggester returns the first
choice content with surrounding whitespace trimmed; its length is bounded
only by the content's length — the under-40-characters limit is requested in
the prompt text but not enforced by the code. -/
theorem c3_suggester_no_length_bound :
    ∀ (apiKey : List Char) (labels : List (List Char)) (remote : RemoteChat)
      (c : List Char) (cs : List (List Char)),
      apiKey.isEmpty = false →
      remote (buildPrompt labels) = Except.ok (c :: cs) →
      getDescriptionFromChatGPT apiKey labels remote = Except.ok (goTrimSpace c) ∧
      (goTrimSpace c).length ≤ c.length := by
  intro apiKey labels remote c cs hk hr
  refine ⟨?_, goTrimSpace_length_le c⟩
  unfold getDescriptionFromChatGPT
  rw [if_neg (by simp [hk]), hr]

/-- C3, witness for the amended theorem at a concrete instantiation. -/
theorem c3_suggester_no_length_bound_witness :
    (("k".data).isEmpty = false) ∧
    (getDescriptionFromChatGPT ("k".data) [] (fun _ => Except.ok [(" hi ".data)]) =
        Except.ok (goTrimSpace (" hi ".data)) ∧
      (goTrimSpace (" hi ".data)).length ≤ (" hi ".data).length) :=
  ⟨rfl, c3_suggester_no_length_bound ("k".data) [] _ (" hi ".data) [] rfl rfl⟩

/-- C5.  The Name Suggester fails exactly when the `OPENAI_API_KEY`
credential is empty, the remote chat call errors, or the response carries no
choices; and whenever it fails the orchestrator marks the file as skipped
(logged, no rename attempted) and the walk continues. -/
theorem c5_suggester_error_cases :
    (∀ (apiKey : List Char) (labels : List (List Char)) (remote : RemoteChat),
        (∃ e, getDescriptionFromChatGPT apiKey labels remote = Except.error e) ↔
          (apiKey = [] ∨ remote (buildPrompt labels) = Except.error () ∨
            remote (buildPrompt labels) = Except.ok [])) ∧
    (∀ (path : List Char) (descr : DescriberResult) (apiKey : List Char)
        (remote : RemoteChat) (input : List Char) (ok : Bool) (e : ApiErr),
        getDescriptionFromChatGPT apiKey (labelsAfterDescriber descr) remote =
          Except.error e →
        processTarget path descr apiKey remote input ok =
          FileOutcome.suggesterFailed) := by
  constructor
  · intro apiKey labels remote
    constructor
    · rintro ⟨e, he⟩
      unfold getDescriptionFromChatGPT at he
      by_cases hk : apiKey.isEmpty = true
      · exact Or.inl (List.isEmpty_iff.mp hk)
      · rw [if_neg hk] at he
        cases hrem : remote (buildPrompt labels) with
        | error u => exact Or.inr (Or.inl rfl)
        | ok choices =>
          cases choices with
          | nil => exact Or.inr (Or.inr rfl)
          | cons c cs => rw [hrem] at he; simp at he
    · rintro (rfl | hrem | hrem)
      · exact ⟨ApiErr.noKey, rfl⟩
      · by_cases hk : apiKey.isEmpty = true
        · exact ⟨ApiErr.noKey, by unfold getDescriptionFromChatGPT; rw [if_pos hk]⟩
        · exact ⟨ApiErr.chatApiErr, by
            unfold getDescriptionFromChatGPT; rw [if_neg hk, hrem]⟩
      · by_cases hk : apiKey.isEmpty = true
        · exact ⟨ApiErr.noKey, by unfold getDescriptionFromChatGPT; rw [if_pos hk]⟩
        · exact ⟨ApiErr.noChoices, by
            unfold getDescriptionFromChatGPT; rw [if_neg hk, hrem]⟩
  · intro path descr apiKey remote input ok e he
    unfold processTarget
    rw [he]

/-- C5, witness: with no configured credential the suggester fails and the
orchestrator skips the file. -/
theorem c5_suggester_error_cases_witness :
    getDescriptionFromChatGPT [] (labelsAfterDescriber DescriberResult.err)
        (fun _ => Except.ok [("x".data)]) = Except.error ApiErr.noKey ∧
    processTarget ("a.png".data) DescriberResult.err []
        (fun _ => Except.ok [("x".data)]) ("y".data) true =
      FileOutcome.suggesterFailed :=
  ⟨rfl, c5_suggester_error_cases.2 _ _ _ _ _ _ ApiErr.noKey rfl⟩

/-- C6.  On an affirmative confirmation the rename target is the original
directory joined with the sanitized suggestion plus the original extension;
both the directory and the extension of the new path equal those of the
original path, and an `os.Rename` failure is a fatal abort of the run. -/
theorem c6_rename_frame :
    (∀ path description : List Char,
        newNameCore path description =
          goDir path ++ '/' :: (sanitizeCore description ++ goExt path)) ∧
    (∀ path description : List Char,
        goDir (newNameCore path description) = goDir path ∧
        goExt (newNameCore path description) = goExt path) ∧
    (∀ path description : List Char,
        renameFile path description false = RenameOutcome.fatalAbort) ∧
    (∀ (path : List Char) (descr : DescriberResult) (apiKey : List Char)
        (remote : RemoteChat) (d : List Char),
        getDescriptionFromChatGPT apiKey (labelsAfterDescriber descr) remote =
          Except.ok d →
        processTarget path descr apiKey remote ("y".data) true =
          FileOutcome.renamed (newNameCore path d)) := by
  refine ⟨fun _ _ => rfl, fun p d => ⟨goDir_newName p d, goExt_newName p d⟩,
    fun _ _ => rfl, ?_⟩
  intro path descr apiKey remote d hd
  unfold processTarget
  rw [hd]
  dsimp only
  rw [if_pos (show List.map goToLower ("y".data) = ['y'] from rfl)]
  rw [show renameFile path d true = RenameOutcome.renamedTo (newNameCore path d) from rfl]

/-- C6, witness: a concrete confirmed rename through the orchestrator. -/
theorem c6_rename_frame_witness :
    getDescriptionFromChatGPT ("k".data) (labelsAfterDescriber DescriberResult.err)
        (fun _ => Except.ok [("x".data)]) = Except.ok ("x".data) ∧
    processTarget ("Screenshot 1.png".data) DescriberResult.err ("k".data)
        (fun _ => Except.ok [("x".data)]) ("y".data) true =
      FileOutcome.renamed (newNameCore ("Screenshot 1.png".data) ("x".data)) :=
  ⟨rfl, c6_rename_frame.2.2.2 _ _ _ _ _ rfl⟩

/-- C8.  For the label list `["cat","dog"]` the constructed prompt contains
the substring `"cat, dog"`, and on a successful response the suggester
returns the first choice content with surrounding whitespace trimmed. -/
theorem c8_prompt_labels :
    containsSub ("cat, dog".data) (buildPrompt [("cat".data), ("dog".data)]) = true ∧
    (∀ (apiKey : List Char) (labels : List (List Char)) (remote : RemoteChat)
        (c : List Char) (cs : List (List Char)),
        apiKey.isEmpty = false →
        remote (buildPrompt labels) = Except.ok (c :: cs) →
        getDescriptionFromChatGPT apiKey labels remote =
          Except.ok (goTrimSpace c)) := by
  refine ⟨by decide, ?_⟩
  intro apiKey labels remote c cs hk hr
  unfold getDescriptionFromChatGPT
  rw [if_neg (by simp [hk]), hr]

/-- C8, witness: concrete trimmed reply. -/
theorem c8_prompt_labels_witness :
    (("k".data).isEmpty = false) ∧
    goTrimSpace (" hi ".data) = ("hi".data) ∧
    getDescriptionFromChatGPT ("k".data) [("cat".data), ("dog".data)]
        (fun _ => Except.ok [(" hi ".data)]) = Except.ok (goTrimSpace (" hi ".data)) :=
  ⟨rfl, rfl, c8_prompt_labels.2 _ _ _ _ _ rfl rfl⟩

/-- C9.  With an empty label list the suggester sends exactly the constant
creative fallback prompt (no labels interpolated), and when the remote call
succeeds with at least one choice it returns a non-error suggestion. -/
theorem c9_empty_labels_fallback :
    buildPrompt [] = fallbackPrompt ∧
    (∀ (apiKey : List Char) (remote : RemoteChat) (c : List Char)
        (cs : List (List Char)),
        apiKey.isEmpty = false →
        remote fallbackPrompt = Except.ok (c :: cs) →
        ∃ name, getDescriptionFromChatGPT apiKey [] remote = Except.ok name) := by
  refine ⟨rfl, ?_⟩
  intro apiKey remote c cs hk hr
  refine ⟨goTrimSpace c, ?_⟩
  unfold getDescriptionFromChatGPT
  rw [if_neg (by simp [hk]), show buildPrompt [] = fallbackPrompt from rfl, hr]

/-- C9, witness: concrete creative-fallback success. -/
theorem c9_empty_labels_fallback_witness :
    (("k".data).isEmpty = false) ∧
    ∃ name, getDescriptionFromChatGPT ("k".data) []
        (fun _ => Except.ok [("pic".data)]) = Except.ok name :=
  ⟨rfl, c9_empty_labels_fallback.2 _ _ ("pic".data) [] rfl rfl⟩

end ScreenshotRenamer
